import Mathlib

/-!
Verification of the `fault.internet.media` module (MIME type structures and
parsers for content types and media ranges).

The source works on byte strings decoded with `ascii`/`surrogateescape`, a
bijection between byte strings and a class of character strings; the embedding
works directly on character strings (`String` / `List Char`).

Python `frozenset`s of parameter pairs are embedded as lists kept in a
canonical (sorted, duplicate-free) order by `canonList`; membership, subset and
emptiness tests used by the source read these lists with set semantics.

The parameter-series codec lives in the repository's `tools` module, which is
not part of the sources under review; its behaviour is modelled from the spec
(see the doc comments of `split_parameter_series`, `decode_parameters`,
`encode_parameters` and `join_parameter_series`).
-/

set_option maxRecDepth 8000

/-! ## Character-list utilities (Python `bytes` helpers) -/

/-- Whitespace characters removed by Python's `strip()`. -/
def pyWS (c : Char) : Bool :=
  c = ' ' ∨ c = '\t' ∨ c = '\n' ∨ c = '\r' ∨ c = '\x0b' ∨ c = '\x0c'

/-- Python `s.strip()`: drop whitespace from both ends. -/
def trimCh (l : List Char) : List Char :=
  ((l.dropWhile pyWS).reverse.dropWhile pyWS).reverse

/-- Python `s.split(sep, 1)`: split at the first occurrence of `sep`;
`none` when `sep` does not occur. -/
def splitOnceCh (sep : Char) : List Char → Option (List Char × List Char)
  | [] => none
  | c :: cs =>
    if c = sep then some ([], cs)
    else (splitOnceCh sep cs).map (fun p => (c :: p.1, p.2))

/-- Python `s.split(sep)` (no limit): split at every occurrence of `sep`. -/
def splitAllCh (sep : Char) : List Char → List (List Char)
  | [] => [[]]
  | c :: cs =>
    match splitAllCh sep cs with
    | [] => if c = sep then [[], []] else [[c]]
    | t :: ts => if c = sep then [] :: t :: ts else (c :: t) :: ts

/-- Join chunks with a separator character (inverse of `splitAllCh`). -/
def joinCh (sep : Char) : List (List Char) → List Char
  | [] => []
  | [t] => t
  | t :: ts => t ++ sep :: joinCh sep ts

/-- Python `s.split(sep, 1)` together with the source's
`(start[1:] or (b'',))[0]` access: the part before the first `sep` and the
remainder, which is empty when `sep` does not occur. -/
def pySplit1 (sep : Char) (l : List Char) : List Char × List Char :=
  match splitOnceCh sep l with
  | none => (l, [])
  | some p => p

/-- Index of the last occurrence of `sep` (Python `s.rfind(sep)`,
with `none` for the -1 result). -/
def rfindCh (sep : Char) : List Char → Option Nat
  | [] => none
  | c :: cs =>
    match rfindCh sep cs with
    | some i => some (i + 1)
    | none => if c = sep then some 0 else none

/-! ## Canonical representation of `frozenset`s of parameter pairs

A parameter pair is a name together with an optional value (a parameter
token without `=` has no value). A `frozenset` of pairs is represented by
the list of its elements in a canonical strict order, so that equal sets
have equal representations when built by `canonList`. -/

/-- A media-type parameter: name and optional value. -/
abbrev Param := String × Option String

/-- Strict lexicographic order on character lists. -/
def listLtCh : List Char → List Char → Bool
  | [], [] => false
  | [], _ :: _ => true
  | _ :: _, [] => false
  | a :: as, b :: bs =>
    if a < b then true
    else if b < a then false
    else listLtCh as bs

/-- Strict order on parameter pairs used for the canonical listing. -/
def paramLt (a b : Param) : Bool :=
  if listLtCh a.1.data b.1.data then true
  else if listLtCh b.1.data a.1.data then false
  else
    match a.2, b.2 with
    | none, some _ => true
    | some x, some y => listLtCh x.data y.data
    | _, _ => false

/-- Insert into a sorted duplicate-free list, skipping an existing duplicate. -/
def insertParam (a : Param) : List Param → List Param
  | [] => [a]
  | b :: bs =>
    if a = b then b :: bs
    else if paramLt a b then a :: b :: bs
    else b :: insertParam a bs

/-- Canonical list of the set of elements of `l` (the embedding of
`frozenset(l)`). -/
def canonList (l : List Param) : List Param :=
  l.foldr insertParam []

/-! ## The `Type` class (named `MediaType` here, `Type` is taken in Lean) -/

/-- The source's `Type` tuple: content type, subtype and parameter set. -/
structure MediaType where
  cotype : String
  subtype : String
  parameters : List Param
deriving DecidableEq, Repr

namespace MediaType

/-- Source `Type.pattern`: whether the type can match multiple types. -/
def pattern (t : MediaType) : Bool :=
  t.cotype = "*" ∨ t.subtype = "*"

/-- Source `Type.__contains__(self, mtype)`: nested tests on content type,
subtype and parameters. `not self.parameters` is Python truthiness (the
frozenset is empty); `mtype[2] and mtype[2].issubset(self.parameters)` is
truthiness (non-empty) plus the subset test. -/
def containsB (self mtype : MediaType) : Bool :=
  if self.cotype = "*" ∨ self.cotype = mtype.cotype then
    if self.subtype = "*" ∨ self.subtype = mtype.subtype then
      if self.parameters.isEmpty = true ∨
          (mtype.parameters.isEmpty = false ∧
            mtype.parameters.all (fun p => decide (p ∈ self.parameters))) then
        true
      else false
    else false
  else false

end MediaType

/-- The source's `any_type`: `*/*` with no parameters. -/
def any_type : MediaType := ⟨"*", "*", []⟩

/-! ## The parameter-series codec (the repository's `tools` module)

The `tools` module is not among the sources under review; these four
functions are modelled from the spec's contract for the Parameter Codec. -/

/-- Turn one token of a parameter series into a (name, optional value) pair:
split at the first `=`; trim name and value. -/
def paramToken (tok : List Char) : Param :=
  match splitOnceCh '=' tok with
  | none => (String.mk (trimCh tok), none)
  | some (n, v) => (String.mk (trimCh n), some (String.mk (trimCh v)))

/-- Modelled from the spec: `tools.split_parameter_series` tokenizes a
`;`/`,`-delimited parameter series into ordered (name, value-or-absent)
pairs; an all-whitespace series yields no tokens. Quoting of values is not
modelled (the claims are about inputs without unusual escaping). -/
def split_parameter_series (s : List Char) : List Param :=
  if trimCh s = [] then []
  else (((splitAllCh ';' s).flatMap (splitAllCh ',')).map paramToken)

/-- Modelled from the spec: `tools.decode_parameters` decodes each value of a
parameter sequence; on ASCII-safe values without unusual escaping decoding
is the identity, which is how it is modelled. -/
def decode_parameters (l : List Param) : List Param := l

/-- Modelled from the spec: `tools.encode_parameters` re-encodes each value;
the identity on ASCII-safe values, matching `decode_parameters`. -/
def encode_parameters (l : List Param) : List Param := l

/-- Serialization of one parameter pair: `name` or `name=value`. -/
def paramBytes (p : Param) : List Char :=
  match p.2 with
  | none => p.1.data
  | some v => p.1.data ++ '=' :: v.data

/-- Modelled from the spec: `tools.join_parameter_series` serializes encoded
pairs, joined with `;`, each pair as `name` or `name=value`. -/
def join_parameter_series (l : List Param) : List Char :=
  joinCh ';' (l.map paramBytes)

namespace MediaType

/-- Python `str.join` takes exactly one (iterable) argument; the source's
`Type.push` calls `'+'.join(ssubtype, subtype)` with two arguments, which
raises `TypeError` unconditionally. This models that call. -/
def joinTwoArgs (_sep _a _b : String) : Except Unit String := Except.error ()

/-- Source `Type.push`: build a new type from the joined subtype. The join
call fails before any tuple is constructed (see `joinTwoArgs`). -/
def push (t : MediaType) (subtype : String) : Except Unit MediaType :=
  (joinTwoArgs "+" t.subtype subtype).map
    (fun s => ⟨t.cotype, s, t.parameters⟩)

/-- Python star-unpacking `cotype, ssubtype, *remainder = self` binds
`remainder` to a list; the source's `pop` then evaluates
`(cotype, ssubtype[:index]) + remainder`, and concatenating a tuple with a
list raises `TypeError`. This models that concatenation. -/
def tuplePlusList (_front : String × String)
    (_remainder : List (List Param)) : Except Unit MediaType :=
  Except.error ()

/-- Source `Type.pop`: when the subtype has no `+` (rfind returns -1) the
receiver itself is returned; otherwise the source builds
`(cotype, ssubtype[:index]) + remainder`, a tuple-with-list concatenation
that raises `TypeError` before any `Type` is constructed (see
`tuplePlusList`). -/
def pop (t : MediaType) : Except Unit MediaType :=
  match rfindCh '+' t.subtype.data with
  | none => Except.ok t
  | some i =>
    tuplePlusList (t.cotype, String.mk (t.subtype.data.take i))
      [t.parameters]

/-- Source `Type.from_bytes`: split once on `;` into base and parameter
series, split the base once on `/` (one content type and one subtype, or a
failure), strip both, decode the split parameter series, append the
keyword overrides, and build the frozenset. The unpacking failure when the
base has no `/` is the `none` result. -/
def from_bytes (s : String) (overrides : List (String × String)) :
    Option MediaType :=
  let start := pySplit1 ';' s.data
  match splitOnceCh '/' start.1 with
  | none => none
  | some (ct, st) =>
    let params := decode_parameters (split_parameter_series start.2) ++
      overrides.map (fun p => (p.1, some p.2))
    some ⟨String.mk (trimCh ct), String.mk (trimCh st), canonList params⟩

/-- Source `Type.from_string`: decode and delegate to `from_bytes` (the
decoding is a bijection, so this is the same function on strings). -/
def from_string (s : String) (overrides : List (String × String)) :
    Option MediaType :=
  from_bytes s overrides

/-- Source `Type.__bytes__`: `cotype/subtype`, then `;` and the re-encoded
joined parameters when the set is non-empty. The frozenset is iterated in
its canonical order. -/
def toBytes (t : MediaType) : List Char :=
  t.cotype.data ++ '/' :: t.subtype.data ++
    (if t.parameters.isEmpty then []
     else ';' :: join_parameter_series (encode_parameters t.parameters))

/-- Source `Type.__str__`: the serialized bytes, decoded. -/
def toString (t : MediaType) : String :=
  String.mk (toBytes t)

end MediaType

/-! ## The quality percentage: Python `int(float(q or b'1.0') * 100)`

CPython parses a decimal literal to the nearest IEEE-754 binary64 double
(round to nearest, ties to even), multiplies in double arithmetic and
truncates toward zero. Doubles are embedded as the exact rationals they
denote; the model covers the normal finite range, which is ample for the
magnitudes a media range can mention. -/

/-- Kernel-computable addition on `ℚ` (the library's instance-path
operations do not reduce inside `decide`; these cross-multiplication
forms, built on `mkRat`, do and agree with them). -/
def qAdd (a b : ℚ) : ℚ :=
  mkRat (a.num * (b.den : ℤ) + b.num * (a.den : ℤ)) (a.den * b.den)

/-- Kernel-computable subtraction on `ℚ`. -/
def qSub (a b : ℚ) : ℚ :=
  mkRat (a.num * (b.den : ℤ) - b.num * (a.den : ℤ)) (a.den * b.den)

/-- Kernel-computable multiplication on `ℚ`. -/
def qMul (a b : ℚ) : ℚ :=
  mkRat (a.num * b.num) (a.den * b.den)

/-- Kernel-computable inverse on `ℚ`. -/
def qInv (b : ℚ) : ℚ :=
  if b.num < 0 then mkRat (-(b.den : ℤ)) b.num.natAbs
  else mkRat (b.den : ℤ) b.num.natAbs

/-- Kernel-computable division on `ℚ`. -/
def qDiv (a b : ℚ) : ℚ :=
  qMul a (qInv b)

/-- Kernel-computable strict comparison on `ℚ`. -/
def qLtB (a b : ℚ) : Bool :=
  decide (a.num * (b.den : ℤ) < b.num * (a.den : ℤ))

/-- Kernel-computable comparison on `ℚ`. -/
def qLeB (a b : ℚ) : Bool :=
  decide (a.num * (b.den : ℤ) ≤ b.num * (a.den : ℤ))

/-- Kernel-computable power of two on `ℚ`. -/
def qPow2 (e : ℤ) : ℚ :=
  if 0 ≤ e then ((2 ^ e.toNat : ℕ) : ℚ) else mkRat 1 (2 ^ (-e).toNat)

/-- Kernel-computable power of ten on `ℚ`. -/
def qPowTen (e : ℤ) : ℚ :=
  if 0 ≤ e then ((10 ^ e.toNat : ℕ) : ℚ) else mkRat 1 (10 ^ (-e).toNat)

/-- Round a rational to an integer, half to even. -/
def rne (x : ℚ) : ℤ :=
  let f := x.floor
  let r := qSub x (f : ℚ)
  if qLtB r (mkRat 1 2) then f
  else if qLtB (mkRat 1 2) r then f + 1
  else if f % 2 = 0 then f else f + 1

/-- Find `e` with `2 ^ e ≤ q < 2 ^ (e + 1)` scanning upward (for `1 ≤ q`;
`pw` is `2 ^ e`). -/
def expUp : Nat → ℚ → ℚ → ℤ → ℤ
  | 0, _, _, e => e
  | Nat.succ fuel, q, pw, e =>
    if qLtB q (qMul pw 2) then e else expUp fuel q (qMul pw 2) (e + 1)

/-- Find `e` with `2 ^ e ≤ q < 2 ^ (e + 1)` scanning downward (for
`0 < q < 1`; `pw` is `2 ^ e`). -/
def expDown : Nat → ℚ → ℚ → ℤ → ℤ
  | 0, _, _, e => e
  | Nat.succ fuel, q, pw, e =>
    if qLeB pw q then e else expDown fuel q (qMul pw (mkRat 1 2)) (e - 1)

/-- The binade exponent of a positive rational. -/
def floorLog2Q (q : ℚ) : ℤ :=
  if qLeB 1 q then expUp 1200 q 1 0 else expDown 1200 q (mkRat 1 2) (-1)

/-- Round a positive rational to the nearest binary64 value. -/
def roundPosDouble (q : ℚ) : ℚ :=
  let e := floorLog2Q q
  let ulp : ℚ := qPow2 (e - 52)
  qMul (rne (qDiv q ulp) : ℚ) ulp

/-- Round a rational to the nearest binary64 value (normal range). -/
def roundDouble (q : ℚ) : ℚ :=
  if q = 0 then 0
  else if qLtB q 0 then -roundPosDouble (-q)
  else roundPosDouble q

/-- IEEE multiplication of two doubles: exact product, correctly rounded. -/
def mulDouble (a b : ℚ) : ℚ :=
  roundDouble (qMul a b)

/-- Python `int()` on a rational value: truncation toward zero. -/
def ratTrunc (q : ℚ) : ℤ :=
  Int.tdiv q.num (q.den : ℤ)

/-- The percentage the range parser computes from the exact rational value
of a `q` parameter: `int(float(q) * 100)`. -/
def percentOfRat (v : ℚ) : ℤ :=
  ratTrunc (mulDouble (roundDouble v) 100)

/-! ### Python `float()` on decimal literals -/

/-- Digit-string value: `none` when a non-digit occurs; otherwise the value
and the number of digits. -/
def digitsVal : List Char → Option (ℕ × ℕ)
  | [] => some (0, 0)
  | c :: cs =>
    if c.isDigit then
      (digitsVal cs).map (fun p => ((c.toNat - 48) * 10 ^ p.2 + p.1, p.2 + 1))
    else none

/-- Value of an optionally signed digit string (used for exponents). -/
def signedDigitsVal (l : List Char) : Option ℤ :=
  match l with
  | '-' :: rest =>
    match digitsVal rest with
    | some (v, n) => if n = 0 then none else some (-(v : ℤ))
    | none => none
  | '+' :: rest =>
    match digitsVal rest with
    | some (v, n) => if n = 0 then none else some (v : ℤ)
    | none => none
  | _ =>
    match digitsVal l with
    | some (v, n) => if n = 0 then none else some (v : ℤ)
    | none => none

/-- Mantissa parse: digits, optionally a point and digits; at least one
digit overall. Returns the exact rational. -/
def mantissaVal (l : List Char) : Option ℚ :=
  match splitOnceCh '.' l with
  | none =>
    match digitsVal l with
    | some (v, n) => if n = 0 then none else some (v : ℚ)
    | none => none
  | some (ip, fp) =>
    match digitsVal ip, digitsVal fp with
    | some (iv, _), some (fv, fn) =>
      if ip = [] ∧ fp = [] then none
      else some (qAdd (iv : ℚ) (qDiv (fv : ℚ) ((10 ^ fn : ℕ) : ℚ)))
    | _, _ => none

/-- Exact rational value of a decimal literal as accepted by Python's
`float()` (optional sign, digits with an optional point, optional
exponent; `inf`/`nan` and underscores are outside the model). -/
def decimalVal (l : List Char) : Option ℚ :=
  let core : List Char → Option ℚ := fun m =>
    match splitOnceCh 'e' m with
    | some (mant, ex) =>
      match mantissaVal mant, signedDigitsVal ex with
      | some v, some e => some (qMul v (qPowTen e))
      | _, _ => none
    | none =>
      match splitOnceCh 'E' m with
      | some (mant, ex) =>
        match mantissaVal mant, signedDigitsVal ex with
        | some v, some e => some (qMul v (qPowTen e))
        | _, _ => none
      | none => mantissaVal m
  match l with
  | '-' :: rest => (core rest).map (fun v => -v)
  | '+' :: rest => core rest
  | _ => core l

/-- Python `float(bytes)`: the literal's exact value rounded to a double. -/
def pyFloat (s : List Char) : Option ℚ :=
  (decimalVal (trimCh s)).map roundDouble

/-! ## The `Range` class (media ranges, `Accept`-header grammar) -/

/-- One entry of a media range: quality percentage and pattern. -/
abbrev REntry := ℤ × MediaType

/-- One group produced by `Range.split`: the raw media-type token, the raw
`q` value and the collected parameter tokens. -/
structure RawGroup where
  mtype : String
  quality : Option String
  params : List Param
deriving DecidableEq, Repr

/-- The loop of the source's `Range.split`: a token with an absent value
whose name holds a `/` flushes the current group and starts a new one; a
token named `q` sets the group's quality; anything else is a parameter. -/
def rangeWalk : List Param → String → Option String → List Param →
    List RawGroup
  | [], mt, q, ps => [⟨mt, q, ps⟩]
  | (n, v) :: rest, mt, q, ps =>
    if v = none ∧ '/' ∈ n.data then ⟨mt, q, ps⟩ :: rangeWalk rest n none []
    else if n = "q" then rangeWalk rest mt v ps
    else rangeWalk rest mt q (ps ++ [(n, v)])

namespace Range

/-- Source `Range.split`: tokenize the header and walk the token stream;
the name of the first token seeds the first group. An empty token stream
is a `StopIteration` failure (`none`). -/
def split (s : String) : Option (List RawGroup) :=
  match split_parameter_series s.data with
  | [] => none
  | t :: rest => some (rangeWalk rest t.1 none [])

/-- The raw `q` bytes handed to `float`: `quality or b'1.0'` (Python
truthiness: both an absent and an empty value fall back to `1.0`). -/
def qualityStr (q : Option String) : List Char :=
  match q with
  | none => "1.0".data
  | some s => if s = "" then "1.0".data else s.data

/-- One entry of `Range.from_bytes`'s loop: unpack the full `/`-split of
the media-type token into exactly a content type and a subtype, compute
`int(float(quality or b'1.0') * 100)` and build the `Type`. A failing
unpack or a malformed `q` literal fails the parse. -/
def entryOfGroup (g : RawGroup) : Option REntry :=
  match splitAllCh '/' g.mtype.data with
  | [ct, st] =>
    match decimalVal (trimCh (qualityStr g.quality)) with
    | none => none
    | some v =>
      some (percentOfRat v,
        ⟨String.mk ct, String.mk st, canonList (decode_parameters g.params)⟩)
  | _ => none

/-- The entries of a media range in parse order, before sorting. -/
def rawEntries (s : String) : Option (List REntry) := do
  let gs ← split s
  gs.mapM entryOfGroup

/-- Stable insertion for the descending sort: place `x` before the first
entry whose quality does not exceed `x`'s. -/
def insDesc (x : REntry) : List REntry → List REntry
  | [] => [x]
  | y :: ys => if y.1 ≤ x.1 then x :: y :: ys else y :: insDesc x ys

/-- Python `list.sort(key=itemgetter(0), reverse=True)`: stable sort,
descending on the quality; ties keep their original relative order. -/
def sortDesc : List REntry → List REntry
  | [] => []
  | x :: xs => insDesc x (sortDesc xs)

/-- Source `Range.from_bytes`: build the entries and sort them by quality,
descending and stable. -/
def from_bytes (s : String) : Option (List REntry) :=
  (rawEntries s).map sortDesc

/-- Source `Range.from_string`: decode and delegate to `from_bytes`. -/
def from_string (s : String) : Option (List REntry) :=
  from_bytes s

/-- The inner loop of `Range.query` over the entries of the range for one
candidate `x`, carrying `current`, `position` and `quality`. The
`q == quality` branch evaluates `mt in position`, which raises `TypeError`
when `position` is still `None`; the final branch is the quality-ordered
`break`. -/
def queryLoop (x : MediaType) : List REntry → Option MediaType →
    Option MediaType → ℤ →
    Except Unit (Option MediaType × Option MediaType × ℤ)
  | [], c, p, qu => .ok (c, p, qu)
  | (q, mt) :: rest, c, p, qu =>
    if MediaType.containsB mt x ∨ MediaType.containsB x mt then
      if qu < q then queryLoop x rest (some x) (some mt) q
      else if q = qu then
        match p with
        | none => .error ()
        | some pos =>
          if MediaType.containsB pos mt then
            queryLoop x rest (some x) (some mt) qu
          else queryLoop x rest c p qu
      else if c.isSome ∧ q < qu then .ok (c, p, qu)
      else queryLoop x rest c p qu
    else queryLoop x rest c p qu

/-- The outer loop of `Range.query` over the available candidates. -/
def queryOuter (r : List REntry) : List MediaType →
    (Option MediaType × Option MediaType × ℤ) →
    Except Unit (Option MediaType × Option MediaType × ℤ)
  | [], st => .ok st
  | x :: xs, st => do
    let st2 ← queryLoop x r st.1 st.2.1 st.2.2
    queryOuter r xs st2

/-- Source `Range.query`: scan the candidates against the entries starting
from `current = position = None`, `quality = 0`; return `None` when no
best was recorded, and the `(current, position, quality)` triple
otherwise. -/
def query (r : List REntry) (available : List MediaType) :
    Except Unit (Option (Option MediaType × Option MediaType × ℤ)) := do
  let st ← queryOuter r available (none, none, 0)
  match st.1 with
  | none => return none
  | some _ => return some st

end Range

/-! ## The spec's description of the query procedure (refinement target) -/

/-- Follows the spec's words for one entry: an entry matches when either
containment direction holds; a matching entry becomes the running best
when there is none, replaces it when its quality is strictly greater, and
replaces candidate and pattern (keeping the quality) when its quality is
equal and its pattern is contained within the running best's pattern. -/
def claimStep (x : MediaType) (best : Option (MediaType × MediaType × ℤ))
    (e : REntry) : Option (MediaType × MediaType × ℤ) :=
  if MediaType.containsB e.2 x ∨ MediaType.containsB x e.2 then
    match best with
    | none => some (x, e.2, e.1)
    | some (bc, bp, bq) =>
      if bq < e.1 then some (x, e.2, e.1)
      else if e.1 = bq ∧ MediaType.containsB bp e.2 then some (x, e.2, bq)
      else some (bc, bp, bq)
  else best

/-- Follows the spec's words for the whole query: candidates in caller
order, entries in range order, tracking a running best; the final best, or
absent when no candidate matched any entry. -/
def claimQuery (r : List REntry) (available : List MediaType) :
    Option (MediaType × MediaType × ℤ) :=
  available.foldl (fun best x => r.foldl (claimStep x) best) none

/-- Correspondence between the source query's loop state (`current`,
`position`, `quality`) and the spec's running best: either nothing has
matched yet and the state is the initial one, or both record the same
candidate, pattern and positive quality. -/
def QRel (st : Option MediaType × Option MediaType × ℤ)
    (best : Option (MediaType × MediaType × ℤ)) : Prop :=
  (st = (none, none, 0) ∧ best = none) ∨
    (∃ c p q, st = (some c, some p, q) ∧ best = some (c, p, q) ∧ 0 < q)

/-! ## Formalization of the round-trip claim's side condition

The round-trip claim quantifies over ASCII media-type strings without
unusual escaping; on the parsed value this means that no component smuggles
a separator of the serialization grammar, that components carry no
surrounding whitespace (the parser strips it, so a re-parse would too) and
that the parameter list is in its canonical frozenset form. -/

/-- Value side condition: no `;` or `,`, and no surrounding whitespace. -/
def valueSafe : Option String → Bool
  | none => true
  | some v =>
    !v.data.contains ';' && !v.data.contains ',' &&
      decide (trimCh v.data = v.data)

/-- Parameter side condition: the pair is not the lone empty-name valueless
token, the name holds no `;`, `,` or `=` and no surrounding whitespace,
and the value is safe. -/
def paramSafe (p : Param) : Bool :=
  !(decide (p.1 = "") && decide (p.2 = none)) &&
    !p.1.data.contains ';' && !p.1.data.contains ',' &&
    !p.1.data.contains '=' && decide (trimCh p.1.data = p.1.data) &&
    valueSafe p.2

/-- Side condition of the round-trip claim on a parsed `MediaType`. -/
def wellFormedB (t : MediaType) : Bool :=
  !t.cotype.data.contains ';' && !t.cotype.data.contains '/' &&
    !t.subtype.data.contains ';' &&
    decide (trimCh t.cotype.data = t.cotype.data) &&
    decide (trimCh t.subtype.data = t.subtype.data) &&
    decide (canonList t.parameters = t.parameters) &&
    t.parameters.all paramSafe

/-! ## Concrete values used in examples and counterexamples -/

/-- The concrete type `text/html`. -/
def textHtml : MediaType := ⟨"text", "html", []⟩

/-- The concrete type `text/plain`. -/
def textPlain : MediaType := ⟨"text", "plain", []⟩

/-- The concrete pattern `text/*`. -/
def textStar : MediaType := ⟨"text", "*", []⟩

/-- The concrete type `application/xml`. -/
def applicationXml : MediaType := ⟨"application", "xml", []⟩

/-- The concrete type `image/png`. -/
def imagePng : MediaType := ⟨"image", "png", []⟩

/-! ## Claim C1: the containment predicate -/

/-- Helper: unfolding of the containment test into a proposition. -/
theorem containsB_iff (self mtype : MediaType) :
    MediaType.containsB self mtype = true ↔
      (self.cotype = "*" ∨ self.cotype = mtype.cotype) ∧
      (self.subtype = "*" ∨ self.subtype = mtype.subtype) ∧
      (self.parameters = [] ∨
        (mtype.parameters ≠ [] ∧
          ∀ p ∈ mtype.parameters, p ∈ self.parameters)) := by
  have hempty : ∀ l : List Param, l.isEmpty = true ↔ l = [] := by
    intro l; simp [List.isEmpty_iff]
  have hnonempty : ∀ l : List Param, l.isEmpty = false ↔ l ≠ [] := by
    intro l; cases l <;> simp
  unfold MediaType.containsB
  split_ifs with h1 h2 h3
  · simp only [true_iff]
    refine ⟨h1, h2, ?_⟩
    rcases h3 with he | ⟨hne, hall⟩
    · exact Or.inl ((hempty _).mp he)
    · exact Or.inr ⟨(hnonempty _).mp hne,
        fun p hp => of_decide_eq_true (List.all_eq_true.mp hall p hp)⟩
  · simp only [false_iff]
    intro ⟨_, _, hp⟩
    apply h3
    rcases hp with he | ⟨hmne, hsub⟩
    · exact Or.inl ((hempty _).mpr he)
    · exact Or.inr ⟨(hnonempty _).mpr hmne,
        List.all_eq_true.mpr (fun p hp => decide_eq_true (hsub p hp))⟩
  · simp only [false_iff]
    intro ⟨_, hc, _⟩
    exact h2 hc
  · simp only [false_iff]
    intro ⟨hc, _, _⟩
    exact h1 hc

/-- C1: for every pair of `MediaType` values, the containment check
`other in self` returns true iff the content type matches (wildcard or
equal), the subtype matches (wildcard or equal), and either `self` has no
parameters, or `other` has a non-empty parameter set every pair of which
is also among `self`'s parameters. -/
theorem contains_characterisation (self other : MediaType) :
    MediaType.containsB self other = true ↔
      (self.cotype = "*" ∨ self.cotype = other.cotype) ∧
      (self.subtype = "*" ∨ self.subtype = other.subtype) ∧
      (self.parameters = [] ∨
        (other.parameters ≠ [] ∧
          ∀ p ∈ other.parameters, p ∈ self.parameters)) :=
  containsB_iff self other

/-! ## Small helper lemmas about the character utilities -/

/-- A split-once result is absent exactly when the separator is absent. -/
theorem splitOnceCh_eq_none_iff (sep : Char) (l : List Char) :
    splitOnceCh sep l = none ↔ sep ∉ l := by
  induction l with
  | nil => simp [splitOnceCh]
  | cons c cs ih =>
    by_cases hc : c = sep
    · subst hc; simp [splitOnceCh]
    · cases h : splitOnceCh sep cs with
      | none =>
        have hni : sep ∉ cs := ih.mp h
        simp only [splitOnceCh, if_neg hc, h, Option.map_none']
        refine iff_of_true (by trivial) ?_
        simp only [List.mem_cons, not_or]
        exact ⟨fun hs => hc hs.symm, hni⟩
      | some p =>
        have hmem : sep ∈ cs := by
          by_contra hn
          rw [ih.mpr hn] at h
          cases h
        simp only [splitOnceCh, if_neg hc, h, Option.map_some']
        exact iff_of_false (by simp)
          (not_not_intro (List.mem_cons_of_mem c hmem))

/-- A last-occurrence search fails exactly when the character is absent. -/
theorem rfindCh_eq_none_iff (sep : Char) (l : List Char) :
    rfindCh sep l = none ↔ sep ∉ l := by
  induction l with
  | nil => simp [rfindCh]
  | cons c cs ih =>
    cases h : rfindCh sep cs with
    | some i =>
      have hmem : sep ∈ cs := by
        by_contra hn
        rw [ih.mpr hn] at h
        cases h
      simp only [rfindCh, h]
      exact iff_of_false (by simp)
        (not_not_intro (List.mem_cons_of_mem c hmem))
    | none =>
      have hni : sep ∉ cs := ih.mp h
      simp only [rfindCh, h]
      by_cases hc : c = sep
      · subst hc; simp
      · rw [if_neg hc]
        refine iff_of_true rfl ?_
        simp only [List.mem_cons, not_or]
        exact ⟨fun hs => hc hs.symm, hni⟩

/-! ## Claim C5: `Type.push` -/

/-- C5 (code bug witness): the source's `push` calls `str.join` with two
arguments, so it raises `TypeError` for every receiver and segment instead
of returning the type with `subtype + "+" + segment`. -/
theorem push_always_raises (t : MediaType) (s : String) :
    MediaType.push t s = Except.error () := rfl

/-! ## Claim C10: `Type.pop` -/

/-- C10 (code bug witness): `pop` returns the receiver unchanged when the
subtype holds no `+`, and raises a `TypeError` when it does — the source
concatenates the `(cotype, truncated-subtype)` tuple with the list bound
by star-unpacking — so for a `+`-subtype it never produces the value with
unchanged content type and parameters that the claim (and `pop`'s own
docstring) describes. -/
theorem pop_characterisation (t : MediaType) :
    ('+' ∉ t.subtype.data → MediaType.pop t = Except.ok t) ∧
    ('+' ∈ t.subtype.data → MediaType.pop t = Except.error ()) := by
  constructor
  · intro h
    unfold MediaType.pop
    rw [(rfindCh_eq_none_iff '+' t.subtype.data).mpr h]
  · intro h
    unfold MediaType.pop
    cases hr : rfindCh '+' t.subtype.data with
    | none => exact absurd h ((rfindCh_eq_none_iff '+' t.subtype.data).mp hr)
    | some i => rfl

/-- Witness for C10 at `application/rss+xml` (raises) and
`application/rss` (identity). -/
theorem pop_characterisation_w :
    MediaType.pop ⟨"application", "rss+xml", []⟩ = Except.error () ∧
    MediaType.pop ⟨"application", "rss", []⟩ =
      Except.ok ⟨"application", "rss", []⟩ :=
  ⟨(pop_characterisation ⟨"application", "rss+xml", []⟩).2 (by decide),
   (pop_characterisation ⟨"application", "rss", []⟩).1 (by decide)⟩

/-! ## Claim C7: `Type.from_bytes` fails exactly on a missing `/` -/

/-- C7: the parse fails exactly when the base-type segment (the input
before the first `;`) contains no `/`; the error itself is the spec's
`MalformedType` (in CPython a tuple-unpacking `ValueError`). -/
theorem from_bytes_fails_iff_no_slash (s : String)
    (ov : List (String × String)) :
    MediaType.from_bytes s ov = none ↔ '/' ∉ (pySplit1 ';' s.data).1 := by
  unfold MediaType.from_bytes
  cases h : splitOnceCh '/' (pySplit1 ';' s.data).1 with
  | none =>
    simp only [h]
    simpa using (splitOnceCh_eq_none_iff '/' (pySplit1 ';' s.data).1).mp h
  | some p =>
    simp only [h]
    have : ¬ splitOnceCh '/' (pySplit1 ';' s.data).1 = none := by simp [h]
    rw [splitOnceCh_eq_none_iff] at this
    push_neg at this
    simp [this]

/-! ## Claim C9: the containment relation is asymmetric but transitive -/

/-- Helper: the containment relation is transitive. -/
theorem containsB_trans (a b c : MediaType)
    (hab : MediaType.containsB a b = true)
    (hbc : MediaType.containsB b c = true) :
    MediaType.containsB a c = true := by
  rw [containsB_iff] at hab hbc ⊢
  obtain ⟨hab1, hab2, hab3⟩ := hab
  obtain ⟨hbc1, hbc2, hbc3⟩ := hbc
  refine ⟨?_, ?_, ?_⟩
  · rcases hab1 with h | h
    · exact Or.inl h
    · rcases hbc1 with h' | h'
      · exact Or.inl (h.trans h')
      · exact Or.inr (h.trans h')
  · rcases hab2 with h | h
    · exact Or.inl h
    · rcases hbc2 with h' | h'
      · exact Or.inl (h.trans h')
      · exact Or.inr (h.trans h')
  · rcases hab3 with h | ⟨hbne, hsub⟩
    · exact Or.inl h
    · rcases hbc3 with h' | ⟨hcne, hsub'⟩
      · exact absurd h' hbne
      · exact Or.inr ⟨hcne, fun p hp => hsub p (hsub' p hp)⟩

/-- C9 counterexample: the claim conjoins the existence of an asymmetric
pair with the existence of a non-transitive triple; no non-transitive
triple exists, since the relation is transitive, so the conjunction is
false. -/
theorem contains_nontransitive_refuted :
    ¬ ((∃ a b : MediaType,
          MediaType.containsB a b = true ∧ MediaType.containsB b a = false) ∧
       (∃ a b c : MediaType,
          MediaType.containsB a b = true ∧ MediaType.containsB b c = true ∧
            MediaType.containsB a c = false)) := by
  rintro ⟨-, a, b, c, hab, hbc, hac⟩
  rw [containsB_trans a b c hab hbc] at hac
  cases hac

/-- C9 amended: the containment relation is indeed not symmetric
(`text/html in text/*` but not conversely), but it is transitive. -/
theorem contains_asymmetric_and_transitive :
    (∃ a b : MediaType,
       MediaType.containsB a b = true ∧ MediaType.containsB b a = false) ∧
    (∀ a b c : MediaType,
       MediaType.containsB a b = true → MediaType.containsB b c = true →
         MediaType.containsB a c = true) :=
  ⟨⟨textStar, textHtml, by decide, by decide⟩, containsB_trans⟩

/-- Witness for C9's transitivity part at concrete types. -/
theorem contains_asymmetric_and_transitive_w :
    MediaType.containsB any_type textHtml = true :=
  contains_asymmetric_and_transitive.2 any_type textStar textHtml
    (by decide) (by decide)

/-! ## Claim C3: range entries are sorted by quality, descending, stably -/

/-- Membership in an insertion result. -/
theorem mem_insDesc (x y : REntry) (l : List REntry) :
    y ∈ Range.insDesc x l ↔ y = x ∨ y ∈ l := by
  induction l with
  | nil => simp [Range.insDesc]
  | cons z zs ih =>
    by_cases hz : z.1 ≤ x.1
    · simp [Range.insDesc, if_pos hz, List.mem_cons]
    · simp only [Range.insDesc, if_neg hz, List.mem_cons, ih]
      tauto

/-- Insertion preserves the descending pairwise order. -/
theorem pairwise_insDesc (x : REntry) (l : List REntry)
    (h : List.Pairwise (fun a b : REntry => b.1 ≤ a.1) l) :
    List.Pairwise (fun a b : REntry => b.1 ≤ a.1) (Range.insDesc x l) := by
  induction l with
  | nil => simp [Range.insDesc]
  | cons y ys ih =>
    obtain ⟨hy, hys⟩ := List.pairwise_cons.mp h
    by_cases hle : y.1 ≤ x.1
    · simp only [Range.insDesc, if_pos hle]
      refine List.pairwise_cons.mpr ⟨?_, h⟩
      intro z hz
      rcases List.mem_cons.mp hz with rfl | hz'
      · exact hle
      · exact le_trans (hy z hz') hle
    · simp only [Range.insDesc, if_neg hle]
      refine List.pairwise_cons.mpr ⟨?_, ih hys⟩
      intro z hz
      rcases (mem_insDesc x z ys).mp hz with rfl | hz'
      · exact le_of_lt (lt_of_not_le hle)
      · exact hy z hz'

/-- The stable descending sort is pairwise descending. -/
theorem pairwise_sortDesc (l : List REntry) :
    List.Pairwise (fun a b : REntry => b.1 ≤ a.1) (Range.sortDesc l) := by
  induction l with
  | nil => exact List.Pairwise.nil
  | cons x xs ih => exact pairwise_insDesc x (Range.sortDesc xs) ih

/-- Inserting an entry touches the equal-quality sublists only by placing
the new entry in front of its own quality class. -/
theorem filter_insDesc (x : REntry) (l : List REntry) (q : ℤ) :
    (Range.insDesc x l).filter (fun e => decide (e.1 = q)) =
      if x.1 = q then x :: l.filter (fun e => decide (e.1 = q))
      else l.filter (fun e => decide (e.1 = q)) := by
  induction l with
  | nil =>
    by_cases hx : x.1 = q <;> simp [Range.insDesc, hx]
  | cons y ys ih =>
    by_cases hle : y.1 ≤ x.1
    · have hd : Range.insDesc x (y :: ys) = x :: y :: ys := by
        simp [Range.insDesc, hle]
      rw [hd]
      by_cases hx : x.1 = q <;> simp [List.filter_cons, hx]
    · have hd : Range.insDesc x (y :: ys) = y :: Range.insDesc x ys := by
        simp [Range.insDesc, hle]
      rw [hd]
      have hlt : x.1 < y.1 := lt_of_not_le hle
      by_cases hx : x.1 = q
      · have hy : ¬ y.1 = q := by omega
        simp [List.filter_cons, hy, ih, hx]
      · by_cases hy : y.1 = q <;> simp [List.filter_cons, hy, ih, hx]

/-- The sort is stable: each quality class of the output is the quality
class of the input, in the same order. -/
theorem filter_sortDesc (l : List REntry) (q : ℤ) :
    (Range.sortDesc l).filter (fun e => decide (e.1 = q)) =
      l.filter (fun e => decide (e.1 = q)) := by
  induction l with
  | nil => rfl
  | cons x xs ih =>
    by_cases hx : x.1 = q <;>
      simp [Range.sortDesc, filter_insDesc, List.filter, hx, ih]

/-- C3: every parsed media range is sorted by quality descending (each
adjacent pair is ordered), the sort is stable (each quality class keeps
the parse order of the raw entries), and the spec's example parses to
`[(100, text/plain), (90, text/html), (90, application/xml)]`. -/
theorem range_sorted_descending_stable :
    (∀ s r, Range.from_bytes s = some r →
       List.Chain' (fun a b : REntry => b.1 ≤ a.1) r) ∧
    (∀ s l r, Range.rawEntries s = some l → Range.from_bytes s = some r →
       ∀ q : ℤ, r.filter (fun e => decide (e.1 = q)) =
         l.filter (fun e => decide (e.1 = q))) ∧
    Range.from_bytes "text/html;q=0.9, text/plain;q=1.0, application/xml;q=0.9" =
      some [(100, textPlain), (90, textHtml), (90, applicationXml)] := by
  refine ⟨?_, ?_, ?_⟩
  · intro s r hr
    obtain ⟨l, -, rfl⟩ := Option.map_eq_some'.mp hr
    exact (pairwise_sortDesc l).chain'
  · intro s l r hl hr q
    rw [Range.from_bytes, hl] at hr
    cases hr
    exact filter_sortDesc l q
  · decide

/-- Witness for C3 at the spec's example header. -/
theorem range_sorted_descending_stable_w :
    List.Chain' (fun a b : REntry => b.1 ≤ a.1)
      [(100, textPlain), (90, textHtml), (90, applicationXml)] :=
  range_sorted_descending_stable.1
    "text/html;q=0.9, text/plain;q=1.0, application/xml;q=0.9"
    [(100, textPlain), (90, textHtml), (90, applicationXml)] (by decide)

/-! ## Claim C6: the quality percentage -/

/-- C6 counterexample: a `q` of `2.0` yields quality 200, outside [0,100]
(the parser does not clamp), and a `q` of `0.57` yields 56, while the
exact decimal product 0.57 times 100 truncates to 57: the parser computes
with binary doubles, not decimals. -/
theorem quality_counterexample :
    Range.from_bytes "*/*;q=2.0" = some [(200, any_type)] ∧
    ¬ ((200 : ℤ) ≤ 100) ∧
    Range.from_bytes "*/*;q=0.57" = some [(56, any_type)] ∧
    ratTrunc ((57 / 100 : ℚ) * 100) = 57 ∧ (56 : ℤ) ≠ 57 := by
  refine ⟨by decide, by decide, by decide, ?_, by decide⟩
  have h : (57 / 100 : ℚ) * 100 = 57 := by norm_num
  rw [h]
  decide

/-- C6 amended: an entry's quality is the integer
`int(float(q or "1.0") * 100)`: 100 when no `q` parameter is present, and
otherwise the value of `q` as a binary double, multiplied by 100 in double
arithmetic and truncated toward zero. For the two-digit decimal values
`k/100`, `0 ≤ k ≤ 100`, the result stays within [0,100]; it is neither
clamped to that interval for other values of `q` nor always equal to the
exact decimal product. -/
theorem quality_percent_characterisation :
    (∀ g : RawGroup, g.quality = none →
       ∀ e, Range.entryOfGroup g = some e → e.1 = 100) ∧
    (∀ k ∈ Finset.range 101,
       0 ≤ percentOfRat (mkRat k 100) ∧ percentOfRat (mkRat k 100) ≤ 100) ∧
    (∀ v : ℚ, percentOfRat v = ratTrunc (mulDouble (roundDouble v) 100)) := by
  refine ⟨?_, by decide, fun v => rfl⟩
  intro g hq e he
  unfold Range.entryOfGroup at he
  rw [hq] at he
  have hd : decimalVal (trimCh (Range.qualityStr none)) = some 1 := by decide
  rw [hd] at he
  split at he
  · cases he
    have : percentOfRat 1 = 100 := by decide
    exact this
  · cases he

/-- Witness for C6 at `k = 57`. -/
theorem quality_percent_characterisation_w :
    0 ≤ percentOfRat (mkRat 57 100) ∧ percentOfRat (mkRat 57 100) ≤ 100 :=
  quality_percent_characterisation.2.1 57 (by decide)

/-! ## Claim C2: the query procedure against the spec's description -/

/-- Once a best with quality `bq` is recorded, entries of strictly lower
quality never change the spec's running best. -/
theorem claim_foldl_stay (x : MediaType) (l : List REntry)
    (bc bp : MediaType) (bq : ℤ) (h : ∀ e ∈ l, e.1 < bq) :
    l.foldl (claimStep x) (some (bc, bp, bq)) = some (bc, bp, bq) := by
  induction l with
  | nil => rfl
  | cons e es ih =>
    have he : e.1 < bq := h e (List.mem_cons_self e es)
    have hstep : claimStep x (some (bc, bp, bq)) e = some (bc, bp, bq) := by
      have h1 : ¬ bq < e.1 := by omega
      have h2 : ¬ (e.1 = bq ∧ MediaType.containsB bp e.2 = true) := by
        rintro ⟨h3, -⟩
        omega
      by_cases hm : (MediaType.containsB e.2 x = true ∨
          MediaType.containsB x e.2 = true)
      · simp [claimStep, hm, h1, h2]
      · simp [claimStep, hm]
    rw [List.foldl_cons, hstep]
    exact ih (fun e' he' => h e' (List.mem_cons_of_mem e he'))

/-- A non-matching entry leaves the spec's running best unchanged. -/
theorem claim_step_nomatch (x : MediaType) (e : REntry)
    (best : Option (MediaType × MediaType × ℤ))
    (hm : ¬ (MediaType.containsB e.2 x = true ∨
             MediaType.containsB x e.2 = true)) :
    claimStep x best e = best := by
  unfold claimStep
  rw [if_neg hm]


/-- The inner loop of the source's query agrees with the spec's fold over
the entries, for quality-descending entries of positive quality. -/
theorem queryLoop_spec (x : MediaType) (l : List REntry) :
    ∀ (c p : Option MediaType) (qu : ℤ) best, QRel (c, p, qu) best →
      List.Pairwise (fun a b : REntry => b.1 ≤ a.1) l →
      (∀ e ∈ l, 0 < e.1) →
      ∃ st2, Range.queryLoop x l c p qu = Except.ok st2 ∧
        QRel st2 (l.foldl (claimStep x) best) := by
  induction l with
  | nil =>
    intro c p qu best hrel _ _
    exact ⟨(c, p, qu), rfl, hrel⟩
  | cons e es ih =>
    intro c p qu best hrel hsort hpos
    obtain ⟨q, mt⟩ := e
    obtain ⟨hall, htail⟩ := List.pairwise_cons.mp hsort
    have hq : 0 < q := hpos (q, mt) (List.mem_cons_self _ _)
    have hpos2 : ∀ e ∈ es, 0 < e.1 :=
      fun e he => hpos e (List.mem_cons_of_mem _ he)
    by_cases hm : (MediaType.containsB mt x = true ∨
        MediaType.containsB x mt = true)
    · rcases hrel with ⟨hst, hbest⟩ | ⟨c0, p0, q0, hst, hbest, hq0⟩
      · simp only [Prod.mk.injEq] at hst
        obtain ⟨hc, hp, hqu⟩ := hst
        subst hc; subst hp; subst hqu; subst hbest
        have hcs : claimStep x none (q, mt) = some (x, mt, q) := by
          simp [claimStep, hm]
        rw [List.foldl_cons, hcs]
        simp only [Range.queryLoop, if_pos hm, if_pos hq]
        exact ih (some x) (some mt) q (some (x, mt, q))
          (Or.inr ⟨x, mt, q, rfl, rfl, hq⟩) htail hpos2
      · simp only [Prod.mk.injEq] at hst
        obtain ⟨hc, hp, hqu⟩ := hst
        subst hc; subst hp; subst hqu; subst hbest
        by_cases h1 : qu < q
        · have hcs : claimStep x (some (c0, p0, qu)) (q, mt) =
              some (x, mt, q) := by
            simp [claimStep, hm, h1]
          rw [List.foldl_cons, hcs]
          simp only [Range.queryLoop, if_pos hm, if_pos h1]
          exact ih (some x) (some mt) q (some (x, mt, q))
            (Or.inr ⟨x, mt, q, rfl, rfl, hq⟩) htail hpos2
        · by_cases h2 : q = qu
          · by_cases h3 : MediaType.containsB p0 mt = true
            · have hcs : claimStep x (some (c0, p0, qu)) (q, mt) =
                  some (x, mt, qu) := by
                simp [claimStep, hm, h1, h2, h3]
              rw [List.foldl_cons, hcs]
              simp only [Range.queryLoop, if_pos hm, if_neg h1, if_pos h2,
                if_pos h3]
              exact ih (some x) (some mt) qu (some (x, mt, qu))
                (Or.inr ⟨x, mt, qu, rfl, rfl, hq0⟩) htail hpos2
            · have hcs : claimStep x (some (c0, p0, qu)) (q, mt) =
                  some (c0, p0, qu) := by
                simp [claimStep, hm, h1, h3]
              rw [List.foldl_cons, hcs]
              simp only [Range.queryLoop, if_pos hm, if_neg h1, if_pos h2,
                if_neg h3]
              exact ih (some c0) (some p0) qu (some (c0, p0, qu))
                (Or.inr ⟨c0, p0, qu, rfl, rfl, hq0⟩) htail hpos2
          · have h4 : q < qu := lt_of_le_of_ne (not_lt.mp h1) h2
            have hcs : claimStep x (some (c0, p0, qu)) (q, mt) =
                some (c0, p0, qu) := by
              simp [claimStep, hm, h1, h2]
            rw [List.foldl_cons, hcs,
              claim_foldl_stay x es c0 p0 qu
                (fun e2 he2 => lt_of_le_of_lt (hall e2 he2) h4)]
            simp only [Range.queryLoop, if_pos hm, if_neg h1, if_neg h2]
            rw [if_pos (show (some c0).isSome = true ∧ q < qu from ⟨rfl, h4⟩)]
            exact ⟨(some c0, some p0, qu), rfl,
              Or.inr ⟨c0, p0, qu, rfl, rfl, hq0⟩⟩
    · rw [List.foldl_cons, claim_step_nomatch x (q, mt) best hm]
      simp only [Range.queryLoop, if_neg hm]
      exact ih c p qu best hrel htail hpos2

/-- The outer loop of the source's query agrees with the spec's fold over
the candidates. -/
theorem queryOuter_spec (r : List REntry)
    (hsort : List.Pairwise (fun a b : REntry => b.1 ≤ a.1) r)
    (hpos : ∀ e ∈ r, 0 < e.1) :
    ∀ (xs : List MediaType) st best, QRel st best →
      ∃ st2, Range.queryOuter r xs st = Except.ok st2 ∧
        QRel st2 (xs.foldl (fun b x => r.foldl (claimStep x) b) best) := by
  intro xs
  induction xs with
  | nil =>
    intro st best hrel
    exact ⟨st, rfl, hrel⟩
  | cons x xs ih =>
    intro st best hrel
    obtain ⟨c, p, qu⟩ := st
    obtain ⟨st2, hok, hrel2⟩ := queryLoop_spec x r c p qu best hrel hsort hpos
    obtain ⟨st3, hok3, hrel3⟩ := ih st2 (r.foldl (claimStep x) best) hrel2
    refine ⟨st3, ?_, by simpa using hrel3⟩
    simp only [Range.queryOuter]
    rw [hok]
    exact hok3

/-- C2 counterexample: on the parsed range `*/*;q=0` and the candidate
`text/html`, the source's query raises a `TypeError` (`mt in position`
with `position` still `None`), while the procedure described by the claim
returns the best triple with quality 0. -/
theorem query_zero_quality_diverges :
    Range.query [((0 : ℤ), any_type)] [textHtml] = Except.error () ∧
    Range.from_bytes "*/*;q=0" = some [((0 : ℤ), any_type)] ∧
    claimQuery [((0 : ℤ), any_type)] [textHtml] =
      some (textHtml, any_type, 0) :=
  ⟨rfl, by decide, rfl⟩

/-- C2 amended: for a quality-descending range all of whose qualities are
positive (a zero-quality entry can instead raise a `TypeError`), `query`
scans candidates in caller order and entries in range order, matches by
two-way containment, replaces the running best on strictly greater
quality, or on equal quality when the entry's pattern is contained in the
running best's pattern, and returns the final best triple, or `None` when
no candidate matched any entry. -/
theorem query_follows_spec (r : List REntry) (xs : List MediaType)
    (hsort : List.Pairwise (fun a b : REntry => b.1 ≤ a.1) r)
    (hpos : ∀ e ∈ r, 0 < e.1) :
    Range.query r xs =
      Except.ok ((claimQuery r xs).map
        (fun t => (some t.1, some t.2.1, t.2.2))) := by
  obtain ⟨st2, hok, hrel⟩ :=
    queryOuter_spec r hsort hpos xs (none, none, 0) none (Or.inl ⟨rfl, rfl⟩)
  have hcq : claimQuery r xs =
      xs.foldl (fun b x => r.foldl (claimStep x) b) none := rfl
  unfold Range.query
  rw [hok]
  rcases hrel with ⟨hst, hbest⟩ | ⟨c, p, q, hst, hbest, -⟩
  · subst hst
    rw [hcq, hbest]
    rfl
  · subst hst
    rw [hcq, hbest]
    rfl

/-- Witness for C2 on a concrete sorted, positive-quality range. -/
theorem query_follows_spec_w :
    Range.query [((100 : ℤ), textStar), ((90 : ℤ), any_type)] [textHtml] =
      Except.ok ((claimQuery [((100 : ℤ), textStar), ((90 : ℤ), any_type)]
        [textHtml]).map (fun t => (some t.1, some t.2.1, t.2.2))) :=
  query_follows_spec [((100 : ℤ), textStar), ((90 : ℤ), any_type)]
    [textHtml] (by decide) (by decide)

/-! ## Claim C4: error freedom of containment and query -/

/-- With positive qualities the inner loop cannot reach the `TypeError`
branch: the invariant is that `position` can be `None` only while the
recorded quality is still 0. -/
theorem queryLoop_ok (x : MediaType) (l : List REntry) :
    ∀ (c p : Option MediaType) (qu : ℤ), (p = none → qu = 0) →
      (∀ e ∈ l, 0 < e.1) →
      ∃ st2, Range.queryLoop x l c p qu = Except.ok st2 ∧
        (st2.2.1 = none → st2.2.2 = 0) := by
  induction l with
  | nil =>
    intro c p qu hinv _
    exact ⟨(c, p, qu), rfl, hinv⟩
  | cons e es ih =>
    intro c p qu hinv hpos
    obtain ⟨q, mt⟩ := e
    have hq : 0 < q := hpos (q, mt) (List.mem_cons_self _ _)
    have hpos2 : ∀ e ∈ es, 0 < e.1 :=
      fun e he => hpos e (List.mem_cons_of_mem _ he)
    by_cases hm : (MediaType.containsB mt x = true ∨
        MediaType.containsB x mt = true)
    · by_cases h1 : qu < q
      · simp only [Range.queryLoop, if_pos hm, if_pos h1]
        exact ih (some x) (some mt) q (fun h => by cases h) hpos2
      · by_cases h2 : q = qu
        · cases hp : p with
          | none =>
            have : qu = 0 := hinv hp
            omega
          | some pos =>
            subst hp
            by_cases h3 : MediaType.containsB pos mt = true
            · simp only [Range.queryLoop, if_pos hm, if_neg h1, if_pos h2,
                if_pos h3]
              exact ih (some x) (some mt) qu (fun h => by cases h) hpos2
            · simp only [Range.queryLoop, if_pos hm, if_neg h1, if_pos h2,
                if_neg h3]
              exact ih c (some pos) qu (fun h => by cases h) hpos2
        · by_cases h4 : (c.isSome = true ∧ q < qu)
          · simp only [Range.queryLoop, if_pos hm, if_neg h1, if_neg h2,
              if_pos h4]
            exact ⟨(c, p, qu), rfl, hinv⟩
          · simp only [Range.queryLoop, if_pos hm, if_neg h1, if_neg h2,
              if_neg h4]
            exact ih c p qu hinv hpos2
    · simp only [Range.queryLoop, if_neg hm]
      exact ih c p qu hinv hpos2

/-- With positive qualities the outer loop never fails. -/
theorem queryOuter_ok (r : List REntry) (hpos : ∀ e ∈ r, 0 < e.1) :
    ∀ (xs : List MediaType) st, (st.2.1 = none → st.2.2 = 0) →
      ∃ st2, Range.queryOuter r xs st = Except.ok st2 ∧
        (st2.2.1 = none → st2.2.2 = 0) := by
  intro xs
  induction xs with
  | nil =>
    intro st hinv
    exact ⟨st, rfl, hinv⟩
  | cons x xs ih =>
    intro st hinv
    obtain ⟨c, p, qu⟩ := st
    obtain ⟨st2, hok, hinv2⟩ := queryLoop_ok x r c p qu hinv hpos
    obtain ⟨st3, hok3, hinv3⟩ := ih st2 hinv2
    refine ⟨st3, ?_, hinv3⟩
    simp only [Range.queryOuter]
    rw [hok]
    exact hok3

/-- A candidate that matches no entry leaves the inner loop's state
untouched. -/
theorem queryLoop_nomatch (x : MediaType) (l : List REntry)
    (h : ∀ e ∈ l, MediaType.containsB e.2 x = false ∧
      MediaType.containsB x e.2 = false) :
    ∀ (c p : Option MediaType) (qu : ℤ),
      Range.queryLoop x l c p qu = Except.ok (c, p, qu) := by
  induction l with
  | nil => intro c p qu; rfl
  | cons e es ih =>
    intro c p qu
    obtain ⟨q, mt⟩ := e
    have he := h (q, mt) (List.mem_cons_self _ _)
    have hm : ¬ (MediaType.containsB mt x = true ∨
        MediaType.containsB x mt = true) := by
      simp [he.1, he.2]
    simp only [Range.queryLoop, if_neg hm]
    exact ih (fun e he' => h e (List.mem_cons_of_mem _ he')) c p qu

/-- When no candidate matches any entry the outer loop returns its initial
state. -/
theorem queryOuter_nomatch (r : List REntry) (xs : List MediaType)
    (h : ∀ x ∈ xs, ∀ e ∈ r, MediaType.containsB e.2 x = false ∧
      MediaType.containsB x e.2 = false) :
    ∀ st, Range.queryOuter r xs st = Except.ok st := by
  induction xs with
  | nil => intro st; rfl
  | cons x xs ih =>
    intro st
    obtain ⟨c, p, qu⟩ := st
    have hx := h x (List.mem_cons_self _ _)
    simp only [Range.queryOuter]
    rw [queryLoop_nomatch x r hx c p qu]
    exact ih (fun x hx' => h x (List.mem_cons_of_mem _ hx')) (c, p, qu)

/-- C4 counterexample: the query over a parsed range with a zero-quality
entry fails with a `TypeError` instead of returning a value. -/
theorem query_raises_on_zero_quality :
    Range.query [((0 : ℤ), ⟨"image", "*", []⟩)] [imagePng] =
      Except.error () ∧
    Range.from_bytes "image/*;q=0" = some [((0 : ℤ), ⟨"image", "*", []⟩)] :=
  ⟨rfl, by decide⟩

/-- C4 amended: the containment check is a total Boolean predicate (it
cannot fail by construction); the query returns `None` rather than an
error when no candidate matches any entry, and it never fails when every
entry's quality is positive — with a zero-quality entry it can instead
raise a `TypeError` when such an entry is the first to match. -/
theorem query_error_freedom (r : List REntry) (xs : List MediaType) :
    (∀ a b : MediaType, MediaType.containsB a b = true ∨
       MediaType.containsB a b = false) ∧
    ((∀ e ∈ r, 0 < e.1) → (Range.query r xs).isOk = true) ∧
    ((∀ x ∈ xs, ∀ e ∈ r, MediaType.containsB e.2 x = false ∧
        MediaType.containsB x e.2 = false) →
      Range.query r xs = Except.ok none) := by
  refine ⟨fun a b => ?_, fun hpos => ?_, fun hnm => ?_⟩
  · cases h : MediaType.containsB a b
    · exact Or.inr rfl
    · exact Or.inl rfl
  · obtain ⟨st2, hok, -⟩ :=
      queryOuter_ok r hpos xs (none, none, 0) (fun _ => rfl)
    obtain ⟨c2, p2, q2⟩ := st2
    unfold Range.query
    rw [hok]
    cases c2 <;> rfl
  · unfold Range.query
    rw [queryOuter_nomatch r xs hnm (none, none, 0)]
    rfl

/-- Witness for C4 on concrete ranges: a positive-quality query succeeds,
and an unmatched query yields the explicit absent value. -/
theorem query_error_freedom_w :
    (Range.query [((100 : ℤ), textStar)] [textHtml]).isOk = true ∧
    Range.query [((100 : ℤ), textStar)] [imagePng] = Except.ok none :=
  ⟨(query_error_freedom [((100 : ℤ), textStar)] [textHtml]).2.1 (by decide),
   (query_error_freedom [((100 : ℤ), textStar)] [imagePng]).2.2 (by decide)⟩

/-! ## Claim C8: serialization round-trips through the parser -/

/-- Bridge between the Boolean `contains` and membership. -/
theorem contains_false (l : List Char) (c : Char) :
    l.contains c = false ↔ c ∉ l := by
  induction l with
  | nil => simp
  | cons a as ih =>
    simp only [List.contains_cons, Bool.or_eq_false_iff, List.mem_cons, ih,
      not_or, beq_eq_false_iff_ne]

/-- Splitting at the first separator recovers the separator-free prefix. -/
theorem splitOnceCh_append (sep : Char) (a b : List Char) (h : sep ∉ a) :
    splitOnceCh sep (a ++ sep :: b) = some (a, b) := by
  induction a with
  | nil => simp [splitOnceCh]
  | cons c cs ih =>
    have hc : ¬ c = sep := fun hcs => h (hcs ▸ List.mem_cons_self c cs)
    have hni : sep ∉ cs := fun hm => h (List.mem_cons_of_mem c hm)
    simp only [List.cons_append, splitOnceCh, if_neg hc, List.append_eq,
      ih hni, Option.map_some']

/-- A separator-free chunk splits into itself. -/
theorem splitAllCh_no_sep (sep : Char) (l : List Char) (h : sep ∉ l) :
    splitAllCh sep l = [l] := by
  induction l with
  | nil => rfl
  | cons c cs ih =>
    have hc : ¬ c = sep := fun hcs => h (hcs ▸ List.mem_cons_self c cs)
    have hni : sep ∉ cs := fun hm => h (List.mem_cons_of_mem c hm)
    simp only [splitAllCh, ih hni, if_neg hc]

/-- A split never produces an empty token list. -/
theorem splitAllCh_ne_nil (sep : Char) (l : List Char) :
    splitAllCh sep l ≠ [] := by
  cases l with
  | nil => simp [splitAllCh]
  | cons c cs =>
    unfold splitAllCh
    cases splitAllCh sep cs with
    | nil => dsimp only; split <;> simp
    | cons t ts => dsimp only; split <;> simp

/-- Splitting after a separator-free chunk peels that chunk off. -/
theorem splitAllCh_append (sep : Char) (a rest : List Char) (h : sep ∉ a) :
    splitAllCh sep (a ++ sep :: rest) = a :: splitAllCh sep rest := by
  induction a with
  | nil =>
    show splitAllCh sep (sep :: rest) = [] :: splitAllCh sep rest
    cases hs : splitAllCh sep rest with
    | nil => exact absurd hs (splitAllCh_ne_nil sep rest)
    | cons t ts =>
      unfold splitAllCh
      rw [hs]
      simp
  | cons c cs ih =>
    have hc : ¬ c = sep := fun hcs => h (hcs ▸ List.mem_cons_self c cs)
    have hni : sep ∉ cs := fun hm => h (List.mem_cons_of_mem c hm)
    simp only [List.cons_append, splitAllCh, List.append_eq, ih hni,
      if_neg hc]

/-- Splitting is a left inverse of joining for separator-free chunks. -/
theorem splitAllCh_joinCh (sep : Char) (toks : List (List Char))
    (hne : toks ≠ []) (h : ∀ t ∈ toks, sep ∉ t) :
    splitAllCh sep (joinCh sep toks) = toks := by
  induction toks with
  | nil => exact absurd rfl hne
  | cons t ts ih =>
    cases ts with
    | nil =>
      show splitAllCh sep t = [t]
      exact splitAllCh_no_sep sep t (h t (List.mem_cons_self t []))
    | cons t2 ts2 =>
      have hj : joinCh sep (t :: t2 :: ts2) = t ++ sep :: joinCh sep (t2 :: ts2) :=
        rfl
      rw [hj, splitAllCh_append sep t _ (h t (List.mem_cons_self t _)),
        ih (by simp) (fun u hu => h u (List.mem_cons_of_mem t hu))]

/-- Comma splitting leaves comma-free tokens alone. -/
theorem flatMap_splitAll_comma (toks : List (List Char))
    (h : ∀ t ∈ toks, ',' ∉ t) :
    toks.flatMap (splitAllCh ',') = toks := by
  induction toks with
  | nil => rfl
  | cons t ts ih =>
    rw [List.flatMap_cons,
      splitAllCh_no_sep ',' t (h t (List.mem_cons_self t ts)),
      ih (fun u hu => h u (List.mem_cons_of_mem t hu))]
    rfl

/-- Mapping a pointwise-identity function is the identity. -/
theorem map_id_of_mem {α : Type} (f : α → α) (l : List α)
    (h : ∀ a ∈ l, f a = a) : l.map f = l := by
  induction l with
  | nil => rfl
  | cons a as ih =>
    rw [List.map_cons, h a (List.mem_cons_self a as),
      ih (fun a ha => h a (List.mem_cons_of_mem _ ha))]

/-- Tokenizing a serialized parameter recovers the parameter. -/
theorem paramToken_paramBytes (p : Param)
    (hname : '=' ∉ p.1.data) (htn : trimCh p.1.data = p.1.data)
    (hv : ∀ v, p.2 = some v → trimCh v.data = v.data) :
    paramToken (paramBytes p) = p := by
  obtain ⟨n, v⟩ := p
  cases v with
  | none =>
    unfold paramBytes paramToken
    rw [(splitOnceCh_eq_none_iff '=' n.data).mpr hname]
    simp only [htn]
  | some v =>
    unfold paramBytes paramToken
    rw [splitOnceCh_append '=' n.data v.data hname]
    simp only [htn, hv v rfl]

/-- A character surviving a `dropWhile` is still in the result when the
predicate rejects it. -/
theorem mem_dropWhile_of_mem (p : Char → Bool) (l : List Char) (c : Char)
    (hc : c ∈ l) (hp : p c = false) : c ∈ l.dropWhile p := by
  induction l with
  | nil => cases hc
  | cons a as ih =>
    by_cases ha : p a = true
    · rw [List.dropWhile_cons_of_pos ha]
      rcases List.mem_cons.mp hc with rfl | hm
      · rw [hp] at ha
        cases ha
      · exact ih hm
    · rw [List.dropWhile_cons_of_neg ha]
      exact hc

/-- A non-whitespace character survives trimming. -/
theorem mem_trimCh (l : List Char) (c : Char) (hc : c ∈ l)
    (hw : pyWS c = false) : c ∈ trimCh l := by
  unfold trimCh
  rw [List.mem_reverse]
  apply mem_dropWhile_of_mem _ _ _ _ hw
  rw [List.mem_reverse]
  exact mem_dropWhile_of_mem _ _ _ hc hw

/-- A trimmed non-empty chunk starts with a non-whitespace character. -/
theorem head_not_ws (c : Char) (cs : List Char)
    (h : trimCh (c :: cs) = c :: cs) : pyWS c = false := by
  by_contra hw
  have hw2 : pyWS c = true := by
    cases hb : pyWS c
    · exact absurd hb hw
    · rfl
  have hlen : (trimCh (c :: cs)).length ≤ cs.length := by
    unfold trimCh
    rw [List.dropWhile_cons_of_pos hw2, List.length_reverse]
    calc ((cs.dropWhile pyWS).reverse.dropWhile pyWS).length
        ≤ (cs.dropWhile pyWS).reverse.length :=
          (List.dropWhile_sublist pyWS).length_le
      _ = (cs.dropWhile pyWS).length := List.length_reverse _
      _ ≤ cs.length := (List.dropWhile_sublist pyWS).length_le
  rw [h] at hlen
  simp at hlen

/-- The components guaranteed by `paramSafe`. -/
theorem paramSafe_spec (p : Param) (h : paramSafe p = true) :
    (¬ (p.1 = "" ∧ p.2 = none)) ∧ ';' ∉ p.1.data ∧ ',' ∉ p.1.data ∧
      '=' ∉ p.1.data ∧ trimCh p.1.data = p.1.data ∧
      ∀ v, p.2 = some v →
        (';' ∉ v.data ∧ ',' ∉ v.data ∧ trimCh v.data = v.data) := by
  unfold paramSafe at h
  simp only [Bool.and_eq_true, Bool.not_eq_true', decide_eq_true_eq] at h
  obtain ⟨⟨⟨⟨⟨hne, hn1⟩, hn2⟩, hn3⟩, htr⟩, hv⟩ := h
  refine ⟨?_, (contains_false _ _).mp hn1, (contains_false _ _).mp hn2,
    (contains_false _ _).mp hn3, htr, ?_⟩
  · rintro ⟨ha, hb⟩
    simp [ha, hb] at hne
  · intro v hveq
    rw [hveq] at hv
    unfold valueSafe at hv
    simp only [Bool.and_eq_true, Bool.not_eq_true', decide_eq_true_eq] at hv
    exact ⟨(contains_false _ _).mp hv.1.1, (contains_false _ _).mp hv.1.2,
      hv.2⟩

/-- A safe serialized parameter holds neither `;` nor `,`. -/
theorem paramBytes_no_sep (p : Param) (h : paramSafe p = true) :
    ';' ∉ paramBytes p ∧ ',' ∉ paramBytes p := by
  obtain ⟨-, h1, h2, -, -, hv⟩ := paramSafe_spec p h
  cases hp2 : p.2 with
  | none =>
    unfold paramBytes
    rw [hp2]
    exact ⟨h1, h2⟩
  | some v =>
    obtain ⟨hv1, hv2, -⟩ := hv v hp2
    unfold paramBytes
    rw [hp2]
    constructor
    · intro hm
      rcases List.mem_append.mp hm with hm | hm
      · exact h1 hm
      · rcases List.mem_cons.mp hm with hm | hm
        · cases hm
        · exact hv1 hm
    · intro hm
      rcases List.mem_append.mp hm with hm | hm
      · exact h2 hm
      · rcases List.mem_cons.mp hm with hm | hm
        · cases hm
        · exact hv2 hm

/-- A string with empty character data is the empty string. -/
theorem string_eq_empty_iff (s : String) : s = "" ↔ s.data = [] := by
  rw [String.ext_iff]

/-- The serialized parameter series of a non-empty safe parameter set does
not trim to nothing (so the re-parse does not read it as an empty
series). -/
theorem join_trim_ne_nil (params : List Param) (hne : params ≠ [])
    (hall : ∀ p ∈ params, paramSafe p = true) :
    trimCh (joinCh ';' (params.map paramBytes)) ≠ [] := by
  obtain ⟨p, ps, rfl⟩ := List.exists_cons_of_ne_nil hne
  obtain ⟨hne0, -, -, -, htrim, -⟩ :=
    paramSafe_spec p (hall p (List.mem_cons_self _ _))
  have hjoin_head : ∀ c, c ∈ paramBytes p →
      c ∈ joinCh ';' ((p :: ps).map paramBytes) := by
    intro c hc
    rw [List.map_cons]
    cases hmap : ps.map paramBytes with
    | nil => exact hc
    | cons u us => exact List.mem_append_left _ hc
  have hchar : ∃ c, c ∈ paramBytes p ∧ pyWS c = false := by
    cases hp2 : p.2 with
    | none =>
      have hne1 : p.1 ≠ "" := fun he => hne0 ⟨he, hp2⟩
      have hdata : p.1.data ≠ [] :=
        fun hd => hne1 ((string_eq_empty_iff p.1).mpr hd)
      obtain ⟨c, cs, hcons⟩ := List.exists_cons_of_ne_nil hdata
      rw [hcons] at htrim
      refine ⟨c, ?_, head_not_ws c cs htrim⟩
      unfold paramBytes
      rw [hp2, hcons]
      exact List.mem_cons_self c cs
    | some v =>
      refine ⟨'=', ?_, by decide⟩
      unfold paramBytes
      rw [hp2]
      exact List.mem_append_right _ (List.mem_cons_self _ _)
  obtain ⟨c, hc, hws⟩ := hchar
  exact List.ne_nil_of_mem (mem_trimCh _ c (hjoin_head c hc) hws)

/-- The character data of a built string. -/
theorem data_mk (l : List Char) : (String.mk l).data = l := rfl

/-- Rebuilding a string from its character data. -/
theorem mk_data (s : String) : String.mk s.data = s := rfl

/-- C8: for a media-type string without unusual escaping (the parsed value
satisfies `wellFormedB`), serializing the parse and parsing it again gives
a structurally equal value. -/
theorem serialize_parse_round_trip (s : String) (t : MediaType)
    (_hparse : MediaType.from_string s [] = some t)
    (hw : wellFormedB t = true) :
    MediaType.from_string (MediaType.toString t) [] = some t := by
  unfold wellFormedB at hw
  simp only [Bool.and_eq_true, Bool.not_eq_true', decide_eq_true_eq,
    List.all_eq_true] at hw
  obtain ⟨⟨⟨⟨⟨⟨hc1, hc2⟩, hs1⟩, hctr⟩, hstr⟩, hcanon⟩, hall⟩ := hw
  have hc1m : ';' ∉ t.cotype.data := (contains_false _ _).mp hc1
  have hc2m : '/' ∉ t.cotype.data := (contains_false _ _).mp hc2
  have hs1m : ';' ∉ t.subtype.data := (contains_false _ _).mp hs1
  have hbase : ';' ∉ t.cotype.data ++ '/' :: t.subtype.data := by
    simp only [List.mem_append, List.mem_cons, not_or]
    exact ⟨hc1m, by decide, hs1m⟩
  have hsplitSlash : splitOnceCh '/' (t.cotype.data ++ '/' :: t.subtype.data)
      = some (t.cotype.data, t.subtype.data) :=
    splitOnceCh_append '/' _ _ hc2m
  unfold MediaType.from_string MediaType.from_bytes MediaType.toString
    MediaType.toBytes
  simp only [data_mk]
  by_cases hemp : t.parameters.isEmpty = true
  · have hpnil : t.parameters = [] := by
      simpa [List.isEmpty_iff] using hemp
    rw [if_pos hemp]
    simp only [List.append_nil]
    have hsplit1 : pySplit1 ';' (t.cotype.data ++ '/' :: t.subtype.data) =
        (t.cotype.data ++ '/' :: t.subtype.data, []) := by
      unfold pySplit1
      rw [(splitOnceCh_eq_none_iff ';' _).mpr hbase]
    rw [hsplit1, hsplitSlash]
    show some ⟨String.mk (trimCh t.cotype.data),
      String.mk (trimCh t.subtype.data),
      canonList (decode_parameters (split_parameter_series []) ++
        List.map (fun p => (p.1, some p.2))
          ([] : List (String × String)))⟩ = some t
    rw [hctr, hstr, mk_data, mk_data]
    show some ⟨t.cotype, t.subtype, ([] : List Param)⟩ = some t
    rw [← hpnil]
  · have hpne : t.parameters ≠ [] := by
      simpa [List.isEmpty_iff] using hemp
    rw [if_neg hemp]
    have hre : t.cotype.data ++ '/' :: t.subtype.data ++ ';' ::
        join_parameter_series (encode_parameters t.parameters) =
        (t.cotype.data ++ '/' :: t.subtype.data) ++ ';' ::
          join_parameter_series (encode_parameters t.parameters) := by
      simp
    rw [hre]
    have hsplit1 : pySplit1 ';'
        ((t.cotype.data ++ '/' :: t.subtype.data) ++ ';' ::
          join_parameter_series (encode_parameters t.parameters)) =
        (t.cotype.data ++ '/' :: t.subtype.data,
          join_parameter_series (encode_parameters t.parameters)) := by
      unfold pySplit1
      rw [splitOnceCh_append ';' _ _ hbase]
    rw [hsplit1, hsplitSlash]
    show some ⟨String.mk (trimCh t.cotype.data),
      String.mk (trimCh t.subtype.data),
      canonList (decode_parameters (split_parameter_series
        (join_parameter_series (encode_parameters t.parameters))) ++
        List.map (fun p => (p.1, some p.2))
          ([] : List (String × String)))⟩ = some t
    have hsps : split_parameter_series
        (join_parameter_series (encode_parameters t.parameters)) =
        t.parameters := by
      unfold split_parameter_series join_parameter_series encode_parameters
      rw [if_neg (join_trim_ne_nil t.parameters hpne hall)]
      rw [splitAllCh_joinCh ';' (t.parameters.map paramBytes)
        (by simpa using hpne)
        (fun u hu => by
          obtain ⟨p, hp, rfl⟩ := List.mem_map.mp hu
          exact (paramBytes_no_sep p (hall p hp)).1)]
      rw [flatMap_splitAll_comma (t.parameters.map paramBytes)
        (fun u hu => by
          obtain ⟨p, hp, rfl⟩ := List.mem_map.mp hu
          exact (paramBytes_no_sep p (hall p hp)).2)]
      rw [List.map_map]
      exact map_id_of_mem _ _ (fun p hp => by
        obtain ⟨-, -, -, h3, h4, hv⟩ := paramSafe_spec p (hall p hp)
        exact paramToken_paramBytes p h3 h4 (fun v hveq => (hv v hveq).2.2))
    rw [hsps, hctr, hstr, mk_data, mk_data]
    have happ : decode_parameters t.parameters ++
        List.map (fun p => (p.1, some p.2)) ([] : List (String × String)) =
        t.parameters := by
      simp [decode_parameters]
    rw [happ, hcanon]

/-- Witness for C8 at a concrete parameterized type. -/
theorem serialize_parse_round_trip_w :
    MediaType.from_string
      (MediaType.toString ⟨"text", "html", [("a", some "1"), ("b", some "2")]⟩)
      [] = some ⟨"text", "html", [("a", some "1"), ("b", some "2")]⟩ :=
  serialize_parse_round_trip "text/html;b=2;a=1"
    ⟨"text", "html", [("a", some "1"), ("b", some "2")]⟩
    (by decide) (by decide)
